import Mathlib

/-!
Shallow embedding of the `go-blockchain` core (packages `blockchain` and the
consensus file) and proofs about it.

Modelling conventions:
* Go byte slices (`[]byte`) are `List Nat`; Go `int` is `Int`; Go strings that
  are only carried around (timestamps, panic messages) are `String`.
* The cryptographic primitives (`sha256.Sum256`, `ecdsa.Sign`, `ecdsa.Verify`)
  are opaque to the source's control flow, so the development is parameterised
  over them through the `Crypto` structure.  `ecdsaSign`'s third argument is
  the index of the `rand.Reader` draw consumed by that call: Go's `ecdsa.Sign`
  draws fresh randomness on every call, and indexing the calls in order is the
  deterministic model of that stream.
* Go panics are modelled as explicit `panicked` constructors carrying the
  panic message and, for `AddBlock`, the state the shared `*Blockchain` holds
  at the moment of the panic.
* The Go UTXO-set key is the string `fmt.Sprintf("%x_%d", txID, outputIndex)`;
  `%x` writes two lowercase hex digits per byte and `_` is not a hex digit, so
  the string determines the pair `(txID, outputIndex)` and vice versa.  The
  model therefore keys the map by the pair directly, and renders Go's map as
  an association list (insertion overwrites the key, deletion filters it out).
-/

namespace GoBlockchain

/-- Byte slices (`[]byte`) as lists of naturals. -/
abbrev Bytes := List Nat

/-- The cryptographic primitives the source calls, as parameters:
`sha` is `sha256.Sum256`, `ecdsaSign privKey msg drawIdx` is the byte string
`r.Bytes() ++ s.Bytes()` produced by `ecdsa.Sign` on its `drawIdx`-th use of
`rand.Reader`, and `ecdsaVerify pubKey msg r s` is `ecdsa.Verify` on the
64-byte public key split into its two coordinates. -/
structure Crypto where
  sha : Bytes → Bytes
  ecdsaSign : Bytes → Bytes → Nat → Bytes
  ecdsaVerify : Bytes → Bytes → Bytes → Bytes → Bool

/-- Go's `fmt.Sprintf("%d", n)` for a natural number, as ASCII bytes. -/
def natDecBytes (n : Nat) : Bytes := (Nat.toDigits 10 n).map Char.toNat

/-- Go's `fmt.Sprintf("%d", i)` for an `int`, as ASCII bytes. -/
def intDecBytes (i : Int) : Bytes :=
  if i < 0 then 45 :: natDecBytes i.natAbs else natDecBytes i.natAbs

/-- A Go string's bytes (for the timestamp fed into the block hash). -/
def strBytes (s : String) : Bytes := s.toList.map Char.toNat

/-- `TxInput` from `blockchain/transaction.go`. -/
structure TxInput where
  TransactionID : Bytes
  OutputIndex : Int
  Signature : Bytes
  PublicKey : Bytes
deriving DecidableEq, Inhabited, Repr

/-- `TxOutput` from `blockchain/transaction.go`. -/
structure TxOutput where
  Value : Int
  PublicKey : Bytes
deriving DecidableEq, Inhabited, Repr

/-- `Transaction` from `blockchain/transaction.go`. -/
structure Transaction where
  ID : Bytes
  Input : List TxInput
  Output : List TxOutput
deriving DecidableEq, Inhabited, Repr

/-- `Wallet` from the wallet file (only the fields the transaction path
reads: `GetPrivateKey` re-parses `PrivateKeyBytes`, which the signing model
consumes as the raw private-key material). -/
structure Wallet where
  PrivateKeyBytes : Bytes
  PublicKey : Bytes
  Address : String
deriving DecidableEq, Inhabited

/-- `UTXO` from the UTXO-set file. -/
structure UTXO where
  TransactionID : Bytes
  OutputIndex : Int
  Value : Int
  PublicKey : Bytes
deriving DecidableEq, Inhabited, Repr

/-- `UTXOSet`: Go's `map[string]*UTXO` keyed by `"%x_%d"` of
`(TransactionID, OutputIndex)`, rendered as an association list keyed by the
pair (the Go key string and the pair determine each other). -/
structure UTXOSet where
  UTXOs : List ((Bytes × Int) × UTXO)
deriving DecidableEq, Inhabited

/-- `NewUTXOSet`. -/
def NewUTXOSet : UTXOSet := ⟨[]⟩

/-- `UTXOSet.AddUTXO`: map assignment, overwriting any entry at the key. -/
def UTXOSet.AddUTXO (us : UTXOSet) (txID : Bytes) (outputIndex : Int)
    (value : Int) (publicKey : Bytes) : UTXOSet :=
  ⟨((txID, outputIndex), ⟨txID, outputIndex, value, publicKey⟩) ::
    us.UTXOs.filter (fun kv => kv.1 ≠ (txID, outputIndex))⟩

/-- `UTXOSet.RemoveUTXO`: `delete` on the map — a no-op when the key is
absent. -/
def UTXOSet.RemoveUTXO (us : UTXOSet) (txID : Bytes) (outputIndex : Int) :
    UTXOSet :=
  ⟨us.UTXOs.filter (fun kv => kv.1 ≠ (txID, outputIndex))⟩

/-- `UTXOSet.GetUTXOsForAddress`: every entry owned by the given public key.
Go iterates the map in unspecified order; the association-list order stands
for one such iteration order. -/
def UTXOSet.GetUTXOsForAddress (us : UTXOSet) (address : Bytes) : List UTXO :=
  (us.UTXOs.map Prod.snd).filter (fun u => u.PublicKey == address)

/-- `UTXOSet.GetBalance`: sum of the owned entries' values. -/
def UTXOSet.GetBalance (us : UTXOSet) (address : Bytes) : Int :=
  ((us.GetUTXOsForAddress address).map UTXO.Value).sum

/-- `Transaction.HashTransaction`: SHA-256 of the concatenation of, for each
input, `TransactionID ++ "%d" OutputIndex ++ PublicKey`, then for each
output, `PublicKey ++ "%d" Value`.  Signatures and the stored `ID` do not
enter the preimage. -/
def Transaction.HashTransaction (c : Crypto) (tx : Transaction) : Bytes :=
  c.sha
    ((tx.Input.map fun i =>
        i.TransactionID ++ intDecBytes i.OutputIndex ++ i.PublicKey).flatten ++
      (tx.Output.map fun o => o.PublicKey ++ intDecBytes o.Value).flatten)

/-- The per-input body of `TrimmedCopy`'s first loop: copy the reference
fields and the public key, leave the signature empty. -/
def trimInput (i : TxInput) : TxInput :=
  { TransactionID := i.TransactionID
    OutputIndex := i.OutputIndex
    Signature := []
    PublicKey := i.PublicKey }

/-- `Transaction.TrimmedCopy`: inputs without signatures, outputs copied,
`ID` recomputed over the trimmed content. -/
def Transaction.TrimmedCopy (c : Crypto) (tx : Transaction) : Transaction :=
  let t : Transaction :=
    { ID := []
      Input := tx.Input.map trimInput
      Output := tx.Output.map fun o => { Value := o.Value, PublicKey := o.PublicKey } }
  { t with ID := t.HashTransaction c }

/-- `Transaction.Sign`: ECDSA over the trimmed copy's `ID`, consuming the
`drawIdx`-th draw of `rand.Reader`. -/
def Transaction.Sign (c : Crypto) (tx : Transaction) (privateKey : Bytes)
    (drawIdx : Nat) : Bytes :=
  c.ecdsaSign privateKey (tx.TrimmedCopy c).ID drawIdx

/-- `Transaction.Verify`: for every input, the public key must be 64 bytes,
the signature 64 bytes, and `ecdsa.Verify` must accept `(r, s)` (the two
signature halves) over the trimmed copy's `ID`.  An empty input list passes
vacuously. -/
def Transaction.Verify (c : Crypto) (tx : Transaction) : Bool :=
  let txCopy := tx.TrimmedCopy c
  tx.Input.all fun input =>
    input.PublicKey.length == 64 &&
    input.Signature.length == 64 &&
    c.ecdsaVerify input.PublicKey txCopy.ID
      (input.Signature.take 32) (input.Signature.drop 32)

/-- The selection loop at the top of `NewTransaction`: scan the candidate
list in the order presented, append an (unsigned) input for every entry owned
by the sender, and break as soon as the accumulated value reaches the
amount.  Returns the inputs appended and the final accumulated value. -/
def selectUTXOs (senderKey : Bytes) (amount : Int) (totalInput : Int) :
    List UTXO → List TxInput × Int
  | [] => ([], totalInput)
  | u :: rest =>
    if u.PublicKey == senderKey then
      let total' := totalInput + u.Value
      let input : TxInput :=
        { TransactionID := u.TransactionID
          OutputIndex := u.OutputIndex
          Signature := []
          PublicKey := senderKey }
      if amount ≤ total' then ([input], total')
      else
        let deeper := selectUTXOs senderKey amount total' rest
        (input :: deeper.1, deeper.2)
    else selectUTXOs senderKey amount totalInput rest

/-- One iteration of the signing loop of `NewTransaction`: re-sign the
transaction as it currently stands (iteration `i` consumes draw `i` of the
randomness stream) and store the result in input `i`'s signature field. -/
def signStep (c : Crypto) (privateKey : Bytes) (t : Transaction) (i : Nat) :
    Transaction :=
  { t with
    Input := t.Input.set i
      ({ t.Input.getD i default with Signature := t.Sign c privateKey i }) }

/-- The signing loop of `NewTransaction`:
`for i := range tx.Input { tx.Input[i].Signature = tx.Sign(priv) }`. -/
def signLoop (c : Crypto) (privateKey : Bytes) (tx : Transaction) :
    Transaction :=
  (List.range tx.Input.length).foldl (signStep c privateKey) tx

/-- Errors `NewTransaction` returns (`fmt.Errorf("insufficient funds: have
%d, need %d", totalInput, amount)`). -/
inductive TxError where
  | insufficientFunds (got needed : Int)
deriving DecidableEq

/-- `NewTransaction` from `blockchain/transaction.go` (the UTXO-based
variant): select sender-owned candidates in presented order until the amount
is covered, fail when the accumulated value falls short, emit the recipient
output plus a change output exactly when the accumulated value exceeds the
amount, compute the `ID` over the unsigned content, then sign every input. -/
def NewTransaction (c : Crypto) (fromWallet : Wallet) (toPublicKey : Bytes)
    (amount : Int) (utxos : List UTXO) : Except TxError Transaction :=
  let selected := selectUTXOs fromWallet.PublicKey amount 0 utxos
  let inputs := selected.1
  let totalInput := selected.2
  if totalInput < amount then
    .error (.insufficientFunds totalInput amount)
  else
    let outputs :=
      { Value := amount, PublicKey := toPublicKey } ::
        (if amount < totalInput then
          [{ Value := totalInput - amount, PublicKey := fromWallet.PublicKey }]
        else [])
    let tx : Transaction := { ID := [], Input := inputs, Output := outputs }
    let tx := { tx with ID := tx.HashTransaction c }
    .ok (signLoop c fromWallet.PrivateKeyBytes tx)

/-- `Block` from the block file.  `Timestamp` is the `time.Now().String()`
value; block construction takes it as a parameter. -/
structure Block where
  Timestamp : String
  Transactions : List Transaction
  Hash : Bytes
  PrevHash : Bytes
  Validator : Bytes
  Nonce : Int
deriving DecidableEq, Inhabited

/-- `Block.calculateHash`: SHA-256 of `PrevHash ++ concat(tx.ID) ++
Timestamp`. -/
def Block.calculateHash (c : Crypto) (b : Block) : Bytes :=
  c.sha (b.PrevHash ++ (b.Transactions.map Transaction.ID).flatten ++
    strBytes b.Timestamp)

/-- `NewBlock`: stamp the timestamp, link to `prevHash`, compute the hash. -/
def NewBlock (c : Crypto) (transactions : List Transaction) (prevHash : Bytes)
    (validator : Bytes) (timestamp : String) : Block :=
  let b : Block :=
    { Timestamp := timestamp
      Transactions := transactions
      Hash := []
      PrevHash := prevHash
      Validator := validator
      Nonce := 0 }
  { b with Hash := b.calculateHash c }

/-- `Blockchain` (the UTXO-tracking variant): the block list plus the live
UTXO set. -/
structure Blockchain where
  Blocks : List Block
  UTXOs : UTXOSet
deriving DecidableEq, Inhabited

/-- The body of `Blockchain.UpdateUTXOs` for one transaction: remove every
input's referenced UTXO, then add one UTXO per output keyed by
`(tx.ID, outputIndex)`. -/
def applyTx (us : UTXOSet) (tx : Transaction) : UTXOSet :=
  let us :=
    tx.Input.foldl
      (fun s input => s.RemoveUTXO input.TransactionID input.OutputIndex) us
  tx.Output.enum.foldl
    (fun s io => s.AddUTXO tx.ID (Int.ofNat io.1) io.2.Value io.2.PublicKey) us

/-- `Blockchain.UpdateUTXOs`: apply every transaction of the block, in
order. -/
def UpdateUTXOs (us : UTXOSet) (b : Block) : UTXOSet :=
  b.Transactions.foldl applyTx us

/-- `NewBlockchain`: one genesis block, a fresh UTXO set, then the genesis
block's transactions applied to it. -/
def NewBlockchain (genesisBlock : Block) : Blockchain :=
  { Blocks := [genesisBlock], UTXOs := UpdateUTXOs NewUTXOSet genesisBlock }

/-- Outcome of `Blockchain.AddBlock`: either the new chain state and the new
block, or a Go panic carrying its message and the state the shared
`*Blockchain` holds when the panic unwinds. -/
inductive ABResult where
  | ok (bc : Blockchain) (b : Block)
  | panicked (msg : String) (bc : Blockchain)
deriving DecidableEq, Inhabited

/-- Holds exactly on the non-panicking outcome. -/
def ABResult.isOk : ABResult → Bool
  | .ok _ _ => true
  | .panicked _ _ => false

/-- The chain state an outcome leaves behind. -/
def ABResult.state : ABResult → Blockchain
  | .ok bc _ => bc
  | .panicked _ bc => bc

/-- `Blockchain.AddBlock` (the UTXO-tracking variant): verify every
transaction's signature — panicking on the first failure, before any state
is touched — then read the tip (`Blocks[len-1]`, a panic on an empty list),
build the new block linked to the tip's hash, update the UTXO set, and
append.  No check relates the transactions' input references to the UTXO
set. -/
def Blockchain.AddBlock (c : Crypto) (bc : Blockchain)
    (transactions : List Transaction) (validator : Bytes) (timestamp : String) :
    ABResult :=
  if transactions.all (fun tx => tx.Verify c) then
    match bc.Blocks.getLast? with
    | none => .panicked "runtime error: index out of range" bc
    | some prevBlock =>
      let newBlock := NewBlock c transactions prevBlock.Hash validator timestamp
      .ok { Blocks := bc.Blocks ++ [newBlock]
            UTXOs := UpdateUTXOs bc.UTXOs newBlock } newBlock
  else .panicked "Invalid transaction signature" bc

/-- `Blockchain.GetBalance` delegates to the UTXO set. -/
def Blockchain.GetBalance (bc : Blockchain) (address : Bytes) : Int :=
  bc.UTXOs.GetBalance address

/-- The chain states reachable from a fresh `NewBlockchain` by successful
`AddBlock` calls (a panicking call leaves the state unchanged, so only `ok`
steps move). -/
inductive Reachable (c : Crypto) : Blockchain → Prop
  | genesis (g : Block) : Reachable c (NewBlockchain g)
  | step (bc bc' : Blockchain) (b : Block) (txs : List Transaction)
      (v : Bytes) (ts : String) : Reachable c bc →
      bc.AddBlock c txs v ts = .ok bc' b → Reachable c bc'

/-- `PosValidator` from the consensus file. -/
structure PosValidator where
  PublicKey : Bytes
  Stake : Int
deriving DecidableEq, Inhabited

/-- The total stake summed over the registry. -/
def totalStake (validators : List PosValidator) : Int :=
  (validators.map PosValidator.Stake).sum

/-- Outcome of `ProofOfStake`: the selected public key, or a panic. -/
inductive PosOutcome where
  | ok (publicKey : Bytes)
  | panicked (msg : String)
deriving DecidableEq, Inhabited

/-- The subtraction walk of `ProofOfStake`: subtract each validator's stake
from the draw until the remainder is `≤ 0`, returning that validator's
public key; falling off the end is the `"Unable to find a validator"`
panic. -/
def posWalk (r : Int) : List PosValidator → PosOutcome
  | [] => .panicked "Unable to find a validator"
  | v :: rest =>
    if r - v.Stake ≤ 0 then .ok v.PublicKey else posWalk (r - v.Stake) rest

/-- The same walk instrumented to report the selected validator's position
in the walk order (validator public keys need not be distinct, so the
counting theorems speak of positions). -/
def posWalkIdx (r : Int) : List PosValidator → Option Nat
  | [] => none
  | v :: rest =>
    if r - v.Stake ≤ 0 then some 0
    else (posWalkIdx (r - v.Stake) rest).map (· + 1)

/-- `ProofOfStake`: sum the stakes, draw `r` from `[0, total)` — Go's
`crypto/rand.Int` panics when its bound is `≤ 0` — then run the subtraction
walk.  Go iterates the `map[string]*PosValidator` in unspecified order; the
list argument fixes one walk order, and the draw is the `r` parameter. -/
def ProofOfStake (validators : List PosValidator) (r : Int) : PosOutcome :=
  if totalStake validators ≤ 0 then
    .panicked "crypto/rand: argument to Int is <= 0"
  else posWalk r validators

/-- Stake values of the first `j` validators in walk order, summed. -/
def prefixStake (validators : List PosValidator) (j : Nat) : Int :=
  ((validators.take j).map PosValidator.Stake).sum

/-- How many draws `r ∈ [0, total)` make the walk select position `k`. -/
def drawCount (validators : List PosValidator) (total : Int) (k : Nat) : Nat :=
  ((Finset.Icc (0 : Int) (total - 1)).filter
    (fun r => posWalkIdx r validators = some k)).card

/-- Total value of the candidate UTXOs owned by the given key — the quantity
§4.2 calls the sender's total. -/
def sumOwnedValues (senderKey : Bytes) (utxos : List UTXO) : Int :=
  ((utxos.filter (fun u => u.PublicKey == senderKey)).map UTXO.Value).sum

/-- The run of candidates the selection loop walks through: the shortest
prefix of the (already owner-filtered) list whose accumulated value, added
to the running total, reaches the amount — the whole list when it never
does. -/
def takeCover (amount : Int) (totalInput : Int) : List UTXO → List UTXO
  | [] => []
  | u :: rest =>
    if amount ≤ totalInput + u.Value then [u]
    else u :: takeCover amount (totalInput + u.Value) rest

/-!
Concrete instances used by witnesses, counterexamples and the double-spend
evaluation.  `testCrypto` instantiates the crypto parameters with total,
executable functions: the hash is the identity on the preimage (injective,
like SHA-256 on distinct preimages), each signing call returns its draw
index (distinct calls return distinct bytes, as randomized ECDSA does with
overwhelming probability), and verification accepts — standing for the fact
that the legitimate key owner can always produce accepting signatures.
-/

/-- Executable instantiation of the crypto parameters (see above). -/
def testCrypto : Crypto :=
  ⟨fun l => l, fun _ _ n => [n], fun _ _ _ _ => true⟩

/-- A sender wallet owning public key `[1]`. -/
def testWallet : Wallet := ⟨[3], [1], "0xabc"⟩

/-- A candidate UTXO of value 5 owned by `testWallet`. -/
def testUtxo1 : UTXO := ⟨[9], 0, 5, [1]⟩

/-- A candidate UTXO of value 7 owned by `testWallet`. -/
def testUtxo2 : UTXO := ⟨[8], 0, 7, [1]⟩

/-- The 64-byte public key of the double-spending owner. -/
def keyA : Bytes := List.replicate 64 7

/-- The 64-byte public key of the first spend's recipient. -/
def keyB : Bytes := List.replicate 64 8

/-- The 64-byte public key of the second (replayed) spend's recipient. -/
def keyC : Bytes := List.replicate 64 9

/-- A zero-input minting transaction paying 100 to `keyA` (the shape
`handleMintTokens` builds). -/
def dsMint : Transaction :=
  let t : Transaction := ⟨[], [], [⟨100, keyA⟩]⟩
  { t with ID := t.HashTransaction testCrypto }

/-- The chain as `main.go` starts it: genesis with no transactions, empty
previous hash, the sentinel validator. -/
def dsChain0 : Blockchain :=
  NewBlockchain (NewBlock testCrypto [] [] (strBytes "genesis-validator") "t0")

/-- The chain after the minting block. -/
def dsChain1 : Blockchain :=
  (dsChain0.AddBlock testCrypto [dsMint] keyA "t1").state

/-- A transaction spending the mint's output `(dsMint.ID, 0)` to `dest`,
carrying a 64-byte public key and a 64-byte signature so that `Verify`'s
length checks pass. -/
def dsSpend (dest : Bytes) : Transaction :=
  let t : Transaction := ⟨[], [⟨dsMint.ID, 0, List.replicate 64 1, keyA⟩], [⟨100, dest⟩]⟩
  { t with ID := t.HashTransaction testCrypto }

/-- The chain after the first spend of `(dsMint.ID, 0)` (paying `keyB`). -/
def dsChain2 : Blockchain :=
  (dsChain1.AddBlock testCrypto [dsSpend keyB] keyA "t2").state

/-- The outcome of submitting a second transaction that replays the already
consumed input reference `(dsMint.ID, 0)` (paying `keyC`). -/
def dsReplay : ABResult := dsChain2.AddBlock testCrypto [dsSpend keyC] keyA "t3"

/-- A transaction whose single input has a 1-byte public key, so that
`Verify` fails on the length check. -/
def badSigTx : Transaction := ⟨[5], [⟨[9], 0, [2], [1]⟩], [⟨1, [2]⟩]⟩

/-- A two-validator registry with stakes 1 and 1. -/
def twoValidators : List PosValidator := [⟨[1], 1⟩, ⟨[2], 1⟩]

end GoBlockchain

deriving instance DecidableEq for Except

namespace GoBlockchain

/-! ## Lemmas about the selection loop -/

/-- A selection run that ends below the amount never hit the break, so its
accumulated value is the running total plus every remaining owned value. -/
theorem selectUTXOs_snd_of_lt (senderKey : Bytes) (amount : Int) :
    ∀ (utxos : List UTXO) (totalInput : Int),
      (selectUTXOs senderKey amount totalInput utxos).2 < amount →
      (selectUTXOs senderKey amount totalInput utxos).2 =
        totalInput + sumOwnedValues senderKey utxos
  | [], t, _ => by simp [selectUTXOs, sumOwnedValues]
  | u :: rest, t, h => by
    by_cases ho : u.PublicKey == senderKey
    · by_cases hb : amount ≤ t + u.Value
      · exfalso
        simp only [selectUTXOs, ho, if_true, hb] at h
        omega
      · have h' : (selectUTXOs senderKey amount (t + u.Value) rest).2 < amount := by
          simpa [selectUTXOs, ho, hb] using h
        have ih := selectUTXOs_snd_of_lt senderKey amount rest (t + u.Value) h'
        simp only [sumOwnedValues] at ih ⊢
        simp [selectUTXOs, ho, hb, List.filter_cons]
        omega
    · have h' : (selectUTXOs senderKey amount t rest).2 < amount := by
        simpa [selectUTXOs, ho] using h
      have ih := selectUTXOs_snd_of_lt senderKey amount rest t h'
      simp only [selectUTXOs, ho, if_false]
      simpa [sumOwnedValues, List.filter_cons, ho] using ih

/-- The inputs the selection loop appends are exactly the shortest run of
owner-filtered candidates, in presented order, covering the amount. -/
theorem selectUTXOs_fst_eq_takeCover (senderKey : Bytes) (amount : Int) :
    ∀ (utxos : List UTXO) (totalInput : Int),
      (selectUTXOs senderKey amount totalInput utxos).1 =
        (takeCover amount totalInput
            (utxos.filter (fun u => u.PublicKey == senderKey))).map
          (fun u => ⟨u.TransactionID, u.OutputIndex, [], senderKey⟩)
  | [], t => by simp [selectUTXOs, takeCover]
  | u :: rest, t => by
    by_cases ho : u.PublicKey == senderKey
    · by_cases hb : amount ≤ t + u.Value
      · simp [selectUTXOs, ho, hb, takeCover, List.filter_cons]
      · have ih := selectUTXOs_fst_eq_takeCover senderKey amount rest (t + u.Value)
        simp [selectUTXOs, ho, hb, takeCover, List.filter_cons, ih]
    · have ih := selectUTXOs_fst_eq_takeCover senderKey amount rest t
      simp [selectUTXOs, ho, takeCover, List.filter_cons, ih]

/-! ## Lemmas about the signing loop -/

/-- The signing loop writes only signature fields: outputs survive it. -/
theorem signLoop_Output (c : Crypto) (privateKey : Bytes) (tx : Transaction) :
    (signLoop c privateKey tx).Output = tx.Output := by
  unfold signLoop
  generalize List.range tx.Input.length = l
  induction l generalizing tx with
  | nil => rfl
  | cons i l ih => simpa [signStep] using ih _

/-- The signing loop writes only signature fields: the stored `ID` survives
it. -/
theorem signLoop_ID (c : Crypto) (privateKey : Bytes) (tx : Transaction) :
    (signLoop c privateKey tx).ID = tx.ID := by
  unfold signLoop
  generalize List.range tx.Input.length = l
  induction l generalizing tx with
  | nil => rfl
  | cons i l ih => simpa [signStep] using ih _

/-! ## C4 -/

/-- C4: when the value the selection loop accumulates over the sender-owned
candidates falls short of the amount, `NewTransaction` produces no
transaction and fails with the insufficient-funds error carrying the
accumulated and the required amounts — and in that case the accumulated
value is exactly the total value of the sender-owned candidates. -/
theorem newTransaction_insufficient_funds (c : Crypto) (fromWallet : Wallet)
    (toKey : Bytes) (amount : Int) (utxos : List UTXO)
    (h : (selectUTXOs fromWallet.PublicKey amount 0 utxos).2 < amount) :
    NewTransaction c fromWallet toKey amount utxos =
      .error (.insufficientFunds (sumOwnedValues fromWallet.PublicKey utxos)
        amount) ∧
    (selectUTXOs fromWallet.PublicKey amount 0 utxos).2 =
      sumOwnedValues fromWallet.PublicKey utxos := by
  have hs := selectUTXOs_snd_of_lt fromWallet.PublicKey amount utxos 0 h
  rw [zero_add] at hs
  refine ⟨?_, hs⟩
  unfold NewTransaction
  simp [h, hs]
  omega

/-- Witness for C4 at a concrete input: the sender owns 5 + 7 = 12 but asks
to send 20. -/
theorem newTransaction_insufficient_funds_witness :
    NewTransaction testCrypto testWallet [2] 20 [testUtxo1, testUtxo2] =
      .error (.insufficientFunds
        (sumOwnedValues testWallet.PublicKey [testUtxo1, testUtxo2]) 20) ∧
    (selectUTXOs testWallet.PublicKey 20 0 [testUtxo1, testUtxo2]).2 =
      sumOwnedValues testWallet.PublicKey [testUtxo1, testUtxo2] :=
  newTransaction_insufficient_funds testCrypto testWallet [2] 20
    [testUtxo1, testUtxo2] (by decide)

/-! ## C8 -/

/-- C8: a successfully created transaction carries exactly one output to the
recipient for the requested amount, plus a change output back to the sender
if and only if the accumulated input value strictly exceeds the amount (none
for exactly-zero change), and the total output value never exceeds the
accumulated input value. -/
theorem newTransaction_output_shape (c : Crypto) (fromWallet : Wallet)
    (toKey : Bytes) (amount : Int) (utxos : List UTXO) (tx : Transaction)
    (h : NewTransaction c fromWallet toKey amount utxos = .ok tx) :
    tx.Output =
      { Value := amount, PublicKey := toKey } ::
        (if amount < (selectUTXOs fromWallet.PublicKey amount 0 utxos).2 then
          [{ Value := (selectUTXOs fromWallet.PublicKey amount 0 utxos).2 - amount,
             PublicKey := fromWallet.PublicKey }]
        else []) ∧
    (tx.Output.map TxOutput.Value).sum ≤
      (selectUTXOs fromWallet.PublicKey amount 0 utxos).2 := by
  unfold NewTransaction at h
  by_cases hlt : (selectUTXOs fromWallet.PublicKey amount 0 utxos).2 < amount
  · simp [hlt] at h
  · simp only [hlt, if_false, Except.ok.injEq] at h
    have hout := signLoop_Output c fromWallet.PrivateKeyBytes
      { ID := Transaction.HashTransaction c
          { ID := []
            Input := (selectUTXOs fromWallet.PublicKey amount 0 utxos).1
            Output := { Value := amount, PublicKey := toKey } ::
              (if amount < (selectUTXOs fromWallet.PublicKey amount 0 utxos).2 then
                [{ Value := (selectUTXOs fromWallet.PublicKey amount 0 utxos).2 - amount,
                   PublicKey := fromWallet.PublicKey }]
              else []) }
        Input := (selectUTXOs fromWallet.PublicKey amount 0 utxos).1
        Output := { Value := amount, PublicKey := toKey } ::
          (if amount < (selectUTXOs fromWallet.PublicKey amount 0 utxos).2 then
            [{ Value := (selectUTXOs fromWallet.PublicKey amount 0 utxos).2 - amount,
               PublicKey := fromWallet.PublicKey }]
          else []) }
    rw [h] at hout
    refine ⟨hout, ?_⟩
    rw [hout]
    by_cases hch : amount < (selectUTXOs fromWallet.PublicKey amount 0 utxos).2
    · simp [hch]
    · simp [hch]
      omega

/-- Witness for C8 at a concrete input: amount 10 from owned values 5 and 7
gives one recipient output of 10 and a change output of 2. -/
theorem newTransaction_output_shape_witness :
    ((NewTransaction testCrypto testWallet [2] 10
        [testUtxo1, testUtxo2]).toOption.getD default).Output =
      { Value := 10, PublicKey := [2] } ::
        (if 10 < (selectUTXOs testWallet.PublicKey 10 0 [testUtxo1, testUtxo2]).2 then
          [{ Value := (selectUTXOs testWallet.PublicKey 10 0 [testUtxo1, testUtxo2]).2 - 10,
             PublicKey := testWallet.PublicKey }]
        else []) ∧
    ((((NewTransaction testCrypto testWallet [2] 10
        [testUtxo1, testUtxo2]).toOption.getD default).Output).map
      TxOutput.Value).sum ≤
      (selectUTXOs testWallet.PublicKey 10 0 [testUtxo1, testUtxo2]).2 :=
  newTransaction_output_shape testCrypto testWallet [2] 10
    [testUtxo1, testUtxo2] _ (by decide)

/-! ## C9 -/

/-- Counterexample for C9: the same two-element candidate set, presented in
its two orders, yields transactions with different IDs — UTXO selection
walks the list in presented order, so it is not order-independent. -/
theorem newTransaction_id_depends_on_candidate_order :
    (NewTransaction testCrypto testWallet [2] 5
        [testUtxo1, testUtxo2]).toOption.map Transaction.ID ≠
      (NewTransaction testCrypto testWallet [2] 5
        [testUtxo2, testUtxo1]).toOption.map Transaction.ID := by
  decide

/-- C9 as amended: selection is deterministic only in the presented order —
the inputs appended are exactly the shortest run of the sender-owned
candidates, walked in the order the list presents them, whose value covers
the amount; no sorting by identity key takes place, so permuting the
candidates can change the selected inputs and the transaction ID. -/
theorem newTransaction_selects_presented_order_run (senderKey : Bytes)
    (amount : Int) (utxos : List UTXO) :
    (selectUTXOs senderKey amount 0 utxos).1 =
      (takeCover amount 0 (utxos.filter (fun u => u.PublicKey == senderKey))).map
        (fun u => ⟨u.TransactionID, u.OutputIndex, [], senderKey⟩) :=
  selectUTXOs_fst_eq_takeCover senderKey amount utxos 0

/-! ## C5 -/

/-- Counterexample for C5: on a registry whose total stake is zero the
selection panics inside the random draw (Go's `crypto/rand.Int` panics when
its bound is `≤ 0`) — it does not signal a recoverable `ConsensusError`,
which the code never defines. -/
theorem proofOfStake_zero_total_panics_concrete :
    ProofOfStake [⟨[1], 0⟩] 0 =
      .panicked "crypto/rand: argument to Int is <= 0" := by
  decide

/-- C5 as amended: whenever the registry's total stake is zero,
`ProofOfStake` panics in the random draw for every draw value; it neither
returns a public key (empty or otherwise) nor signals a recoverable error
condition. -/
theorem proofOfStake_zero_total_panics (validators : List PosValidator)
    (r : Int) (h : totalStake validators = 0) :
    ProofOfStake validators r =
      .panicked "crypto/rand: argument to Int is <= 0" := by
  unfold ProofOfStake
  rw [h]
  simp

/-- Witness for C5 at a concrete input: one validator with stake 0. -/
theorem proofOfStake_zero_total_panics_witness :
    ProofOfStake [⟨[7], 0⟩] 3 =
      .panicked "crypto/rand: argument to Int is <= 0" :=
  proofOfStake_zero_total_panics [⟨[7], 0⟩] 3 (by decide)

/-! ## C2 -/

/-- Counterexample for C2: a transaction whose input carries a 1-byte public
key fails `Verify`, and `AddBlock` then panics — a process-fatal Go panic,
not a recoverable `ValidationError` result (the code defines none). -/
theorem addBlock_panics_on_bad_signature_concrete :
    dsChain0.AddBlock testCrypto [badSigTx] [1] "t9" =
      .panicked "Invalid transaction signature" dsChain0 := by
  decide

/-- C2 as amended: whenever some transaction of the candidate list fails
signature verification, `AddBlock` panics with `"Invalid transaction
signature"` before touching any state — the whole block is rejected, no
subset of the transactions is accepted, and the block list and the UTXO set
are exactly as they were (the carried state is the input state) — but the
failure is a process-fatal panic, not a recoverable `ValidationError`. -/
theorem addBlock_invalid_signature_panics_state_unchanged (c : Crypto)
    (bc : Blockchain) (transactions : List Transaction) (validator : Bytes)
    (timestamp : String)
    (h : ∃ tx ∈ transactions, tx.Verify c = false) :
    bc.AddBlock c transactions validator timestamp =
      .panicked "Invalid transaction signature" bc := by
  obtain ⟨tx, htx, hv⟩ := h
  have hall : transactions.all (fun tx => tx.Verify c) = false := by
    rw [List.all_eq_false]
    exact ⟨tx, htx, by simp [hv]⟩
  unfold Blockchain.AddBlock
  rw [hall]
  simp

/-- Witness for C2 at a concrete input: the bad-signature transaction in a
fresh chain. -/
theorem addBlock_invalid_signature_panics_state_unchanged_witness :
    dsChain1.AddBlock testCrypto [badSigTx] [1] "t9" =
      .panicked "Invalid transaction signature" dsChain1 :=
  addBlock_invalid_signature_panics_state_unchanged testCrypto dsChain1
    [badSigTx] [1] "t9" ⟨badSigTx, by decide, by decide⟩

/-! ## C10 -/

/-- C10: a transaction with an empty input list passes `Verify` vacuously —
no key-length, signature-length or ECDSA check runs, whatever the
cryptographic primitives do — and `AddBlock` on a non-empty chain accepts a
block containing only such a zero-input minting transaction. -/
theorem verify_empty_inputs_accepted (c : Crypto) (idBytes : Bytes)
    (outputs : List TxOutput) (bc : Blockchain) (validator : Bytes)
    (timestamp : String) (h : bc.Blocks ≠ []) :
    Transaction.Verify c ⟨idBytes, [], outputs⟩ = true ∧
    (bc.AddBlock c [⟨idBytes, [], outputs⟩] validator timestamp).isOk = true := by
  constructor
  · simp [Transaction.Verify]
  · unfold Blockchain.AddBlock
    have hv : ([(⟨idBytes, [], outputs⟩ : Transaction)]).all
        (fun tx => tx.Verify c) = true := by
      simp [Transaction.Verify]
    rw [hv]
    match hl : bc.Blocks.getLast? with
    | none => exact absurd (List.getLast?_eq_none_iff.mp hl) h
    | some prev => simp [ABResult.isOk]

/-- Witness for C10 at a concrete input: the minting transaction paying 100
to `keyA`, added on top of the genesis chain. -/
theorem verify_empty_inputs_accepted_witness :
    Transaction.Verify testCrypto ⟨dsMint.ID, [], [⟨100, keyA⟩]⟩ = true ∧
    (dsChain0.AddBlock testCrypto [⟨dsMint.ID, [], [⟨100, keyA⟩]⟩]
      keyA "t1").isOk = true :=
  verify_empty_inputs_accepted testCrypto dsMint.ID [⟨100, keyA⟩] dsChain0
    keyA "t1" (by decide)

/-! ## Lemmas for the per-input signing claim -/

/-- Setting an index to the value already stored there changes nothing. -/
theorem list_set_getD_self {α : Type} :
    ∀ (l : List α) (i : Nat) (d : α), l.set i (l.getD i d) = l
  | [], _, _ => by simp
  | _ :: _, 0, _ => by simp [List.getD]
  | a :: l, i + 1, d => by
    simp only [List.getD_cons_succ, List.set_cons_succ]
    rw [list_set_getD_self l i d]

/-- The trimmed copy's recomputed `ID` is the transaction's unsigned-content
hash: trimming drops only signatures, whose bytes never enter the hash
preimage. -/
theorem trimmedCopy_ID (c : Crypto) (tx : Transaction) :
    (tx.TrimmedCopy c).ID = tx.HashTransaction c := by
  unfold Transaction.TrimmedCopy Transaction.HashTransaction
  simp only [List.map_map]
  have harg : ((fun i => i.TransactionID ++ (intDecBytes i.OutputIndex ++ i.PublicKey)) ∘
      trimInput) =
      fun i : TxInput => i.TransactionID ++ (intDecBytes i.OutputIndex ++ i.PublicKey) := by
    funext i
    rfl
  have hout : ((fun o => o.PublicKey ++ intDecBytes o.Value) ∘
      fun o : TxOutput => ({ Value := o.Value, PublicKey := o.PublicKey } : TxOutput)) =
      fun o : TxOutput => o.PublicKey ++ intDecBytes o.Value := by
    funext o
    rfl
  simp [harg, hout]

/-- Trimming ignores the signature field. -/
theorem trimInput_set_signature (i : TxInput) (s : Bytes) :
    trimInput ({ i with Signature := s }) = trimInput i :=
  rfl

/-- Overwriting one input's signature with anything leaves the trimmed copy
— and with it the signed message — unchanged. -/
theorem trimmedCopy_set_signature (c : Crypto) (tx : Transaction) (i : Nat)
    (s : Bytes) :
    Transaction.TrimmedCopy c
      { tx with
        Input := tx.Input.set i ({ tx.Input.getD i default with Signature := s }) } =
      tx.TrimmedCopy c := by
  have hmap :
      (tx.Input.set i ({ tx.Input.getD i default with Signature := s })).map trimInput =
        tx.Input.map trimInput := by
    rw [List.map_set, trimInput_set_signature]
    have hg : trimInput (tx.Input.getD i default) =
        (tx.Input.map trimInput).getD i (trimInput default) := by
      rw [List.getD_map]
    rw [hg, list_set_getD_self]
  unfold Transaction.TrimmedCopy Transaction.HashTransaction
  simp only [hmap]

/-- One signing iteration leaves the trimmed copy unchanged. -/
theorem signStep_trimmedCopy (c : Crypto) (p : Bytes) (t : Transaction)
    (i : Nat) : (signStep c p t i).TrimmedCopy c = t.TrimmedCopy c :=
  trimmedCopy_set_signature c t i _

/-- One signing iteration preserves the number of inputs. -/
theorem signStep_length (c : Crypto) (p : Bytes) (t : Transaction) (i : Nat) :
    (signStep c p t i).Input.length = t.Input.length := by
  simp [signStep]

/-- The input list after one signing iteration, spelled out. -/
theorem signStep_Input (c : Crypto) (p : Bytes) (t : Transaction) (i : Nat) :
    (signStep c p t i).Input =
      t.Input.set i ({ t.Input.getD i default with Signature := t.Sign c p i }) :=
  rfl

/-- Running the first `m` signing iterations preserves the trimmed copy and
the input count, overwrites the signatures of the inputs at positions below
`m` with the per-position signature over the original trimmed hash, and
leaves the later inputs untouched. -/
theorem signLoop_invariant (c : Crypto) (p : Bytes) (tx : Transaction) :
    ∀ m : Nat,
      ((List.range m).foldl (signStep c p) tx).TrimmedCopy c =
          tx.TrimmedCopy c ∧
      ((List.range m).foldl (signStep c p) tx).Input.length =
          tx.Input.length ∧
      ∀ j d, ((List.range m).foldl (signStep c p) tx).Input.getD j d =
        if j < m ∧ j < tx.Input.length then
          ({ tx.Input.getD j default with
             Signature := c.ecdsaSign p (tx.TrimmedCopy c).ID j })
        else tx.Input.getD j d := by
  intro m
  induction m with
  | zero =>
    refine ⟨rfl, rfl, ?_⟩
    intro j d
    simp
  | succ m ih =>
    obtain ⟨htrim, hlen, hget⟩ := ih
    rw [List.range_succ, List.foldl_append, List.foldl_cons, List.foldl_nil]
    set t := (List.range m).foldl (signStep c p) tx with ht
    refine ⟨by rw [signStep_trimmedCopy, htrim], by rw [signStep_length, hlen], ?_⟩
    intro j d
    by_cases hj : j = m
    · subst hj
      by_cases hlt : j < tx.Input.length
      · have hlt' : j < t.Input.length := by omega
        rw [signStep_Input, List.getD_eq_getElem?_getD,
          List.getElem?_set_self hlt', Option.getD_some]
        have hv : t.Input.getD j default = tx.Input.getD j default := by
          rw [hget j default]
          simp
        have hsig : t.Sign c p j = c.ecdsaSign p (tx.TrimmedCopy c).ID j := by
          unfold Transaction.Sign
          rw [htrim]
        rw [hv, hsig]
        simp [hlt]
      · have hge : t.Input.length ≤ j := by omega
        rw [signStep_Input, List.set_eq_of_length_le hge, hget j d]
        simp [hlt]
    · rw [signStep_Input, List.getD_eq_getElem?_getD,
        List.getElem?_set_ne (Ne.symm hj), ← List.getD_eq_getElem?_getD,
        hget j d]
      by_cases hjm : j < m
      · have h1 : j < m + 1 := by omega
        simp [hjm, h1]
      · have h1 : ¬(j < m ∧ j < tx.Input.length) := by omega
        have h2 : ¬(j < m + 1 ∧ j < tx.Input.length) := by omega
        simp [h1, h2]

/-- The whole signing loop leaves the trimmed copy unchanged. -/
theorem signLoop_trimmedCopy (c : Crypto) (p : Bytes) (tx : Transaction) :
    (signLoop c p tx).TrimmedCopy c = tx.TrimmedCopy c :=
  (signLoop_invariant c p tx tx.Input.length).1

/-- The whole signing loop preserves the number of inputs. -/
theorem signLoop_length (c : Crypto) (p : Bytes) (tx : Transaction) :
    (signLoop c p tx).Input.length = tx.Input.length :=
  (signLoop_invariant c p tx tx.Input.length).2.1

/-- The whole signing loop preserves the unsigned-content hash. -/
theorem signLoop_HashTransaction (c : Crypto) (p : Bytes) (tx : Transaction) :
    (signLoop c p tx).HashTransaction c = tx.HashTransaction c := by
  rw [← trimmedCopy_ID c (signLoop c p tx), signLoop_trimmedCopy,
    trimmedCopy_ID]

/-- After the signing loop, input `j` carries the signature produced by the
`j`-th randomness draw over the transaction's unsigned-content hash. -/
theorem signLoop_signature (c : Crypto) (p : Bytes) (tx : Transaction)
    (j : Nat) (d : TxInput) (hj : j < tx.Input.length) :
    ((signLoop c p tx).Input.getD j d).Signature =
      c.ecdsaSign p (tx.HashTransaction c) j := by
  have hinv := (signLoop_invariant c p tx tx.Input.length).2.2 j d
  rw [show signLoop c p tx =
      (List.range tx.Input.length).foldl (signStep c p) tx from rfl, hinv,
    if_pos ⟨hj, hj⟩]
  simp [trimmedCopy_ID]

/-! ## C1 -/

/-- C1 evaluated at the failing input: 100 units are minted to `keyA`; the
first spend of the reference `(dsMint.ID, 0)` is accepted and pays `keyB`;
submitting a second transaction that replays the very same, already
consumed, input reference is accepted as well (`AddBlock` checks only
signatures, and removing an absent key from the UTXO map is a silent no-op),
after which `keyB` and `keyC` hold 100 each — 200 units out of 100 ever
minted.  The claimed failure (`InsufficientFunds`/reference not found) never
occurs. -/
theorem addBlock_accepts_replayed_input_reference :
    (dsChain1.AddBlock testCrypto [dsSpend keyB] keyA "t2").isOk = true ∧
    dsChain1.GetBalance keyA = 100 ∧
    dsChain2.GetBalance keyB = 100 ∧
    dsReplay.isOk = true ∧
    dsReplay.state.GetBalance keyB = 100 ∧
    dsReplay.state.GetBalance keyC = 100 := by
  decide

/-! ## C3 -/

/-- Inversion of a successful `AddBlock`: the verification pass succeeded,
the chain was non-empty with tip `prev`, the new block is built on
`prev.Hash`, and the new state appends it and updates the UTXO set. -/
theorem addBlock_ok_inv (c : Crypto) (bc bc' : Blockchain) (b : Block)
    (txs : List Transaction) (v : Bytes) (ts : String)
    (h : bc.AddBlock c txs v ts = .ok bc' b) :
    ∃ prev, bc.Blocks.getLast? = some prev ∧
      b = NewBlock c txs prev.Hash v ts ∧
      bc' = ⟨bc.Blocks ++ [b], UpdateUTXOs bc.UTXOs b⟩ := by
  unfold Blockchain.AddBlock at h
  by_cases hall : txs.all (fun tx => tx.Verify c) = true
  · rw [hall] at h
    simp only [if_true] at h
    match hl : bc.Blocks.getLast? with
    | none => rw [hl] at h; exact absurd h (by simp)
    | some prev =>
      rw [hl] at h
      simp only [ABResult.ok.injEq] at h
      exact ⟨prev, rfl, h.2.symm, by rw [← h.1, ← h.2]⟩
  · rw [Bool.not_eq_true] at hall
    rw [hall] at h
    exact absurd h (by simp)

/-- C3: every chain state reachable from a fresh blockchain by successful
`AddBlock` calls is hash-chained — each block's `PrevHash` equals its
immediate predecessor's `Hash` — and every successful `AddBlock` step grows
the block list exactly by appending the new block. -/
theorem reachable_chain_integrity (c : Crypto) (bc : Blockchain)
    (h : Reachable c bc) :
    List.Chain' (fun a b => b.PrevHash = a.Hash) bc.Blocks ∧
    ∀ (txs : List Transaction) (v : Bytes) (ts : String) (bc' : Blockchain)
      (nb : Block), bc.AddBlock c txs v ts = .ok bc' nb →
        bc'.Blocks = bc.Blocks ++ [nb] := by
  have growth : ∀ (bc₀ : Blockchain) (txs : List Transaction) (v : Bytes)
      (ts : String) (bc' : Blockchain) (nb : Block),
      bc₀.AddBlock c txs v ts = .ok bc' nb → bc'.Blocks = bc₀.Blocks ++ [nb] := by
    intro bc₀ txs v ts bc' nb hstep
    obtain ⟨prev, _, _, hbc⟩ := addBlock_ok_inv c bc₀ bc' nb txs v ts hstep
    rw [hbc]
  induction h with
  | genesis g => exact ⟨List.chain'_singleton g, growth _⟩
  | step bc bc' b txs v ts hreach hstep ih =>
    refine ⟨?_, growth _⟩
    obtain ⟨prev, hl, hb, hbc⟩ := addBlock_ok_inv c bc bc' b txs v ts hstep
    rw [hbc]
    rw [List.chain'_append]
    refine ⟨ih.1, List.chain'_singleton _, ?_⟩
    intro x hx y hy
    rw [hl, Option.mem_some_iff] at hx
    simp only [List.head?_cons, Option.mem_some_iff] at hy
    rw [← hx, ← hy, hb]
    rfl

/-- Witness for C3: the fresh chain started from the genesis block that
`main.go` builds. -/
theorem reachable_chain_integrity_witness :
    List.Chain' (fun a b => b.PrevHash = a.Hash) dsChain0.Blocks :=
  (reachable_chain_integrity testCrypto dsChain0
    (Reachable.genesis
      (NewBlock testCrypto [] [] (strBytes "genesis-validator") "t0"))).1

/-! ## C7 -/

/-- Counterexample for C7: in a concrete single-signer transaction with two
inputs, the two inputs' signature fields are not byte-for-byte equal — each
input is signed by a separate `ecdsa.Sign` call consuming fresh randomness,
so the byte strings differ. -/
theorem newTransaction_signatures_differ_concrete :
    ((((NewTransaction testCrypto testWallet [2] 10
          [testUtxo1, testUtxo2]).toOption.getD default).Input.getD 0
        default).Signature) ≠
      ((((NewTransaction testCrypto testWallet [2] 10
          [testUtxo1, testUtxo2]).toOption.getD default).Input.getD 1
        default).Signature) := by
  decide

/-- C7 as amended: in every transaction produced by the single-signer
creation path, the `ID` is computed over the unsigned content (it equals the
transaction's signature-free hash), and each input `j` carries a signature
produced with the sender's private key over that same `ID`, using the `j`-th
fresh randomness draw — the per-input signatures sign one common message but
are separate randomized signatures, not one shared byte string. -/
theorem newTransaction_signs_each_input_over_same_id (c : Crypto)
    (fromWallet : Wallet) (toKey : Bytes) (amount : Int) (utxos : List UTXO)
    (tx : Transaction)
    (h : NewTransaction c fromWallet toKey amount utxos = .ok tx) :
    tx.ID = tx.HashTransaction c ∧
    ∀ j d, j < tx.Input.length →
      (tx.Input.getD j d).Signature =
        c.ecdsaSign fromWallet.PrivateKeyBytes tx.ID j := by
  unfold NewTransaction at h
  by_cases hlt : (selectUTXOs fromWallet.PublicKey amount 0 utxos).2 < amount
  · simp [hlt] at h
  · simp only [hlt, if_false, Except.ok.injEq] at h
    rw [← h]
    constructor
    · rw [signLoop_ID, signLoop_HashTransaction]
      rfl
    · intro j d hj
      rw [signLoop_length] at hj
      rw [signLoop_signature c _ _ j d hj, signLoop_ID]
      rfl

/-- Witness for C7 at a concrete input: the two-input transaction paying 10
out of owned values 5 and 7. -/
theorem newTransaction_signs_each_input_over_same_id_witness :
    ((NewTransaction testCrypto testWallet [2] 10
        [testUtxo1, testUtxo2]).toOption.getD default).ID =
      ((NewTransaction testCrypto testWallet [2] 10
        [testUtxo1, testUtxo2]).toOption.getD default).HashTransaction
        testCrypto ∧
    ((((NewTransaction testCrypto testWallet [2] 10
        [testUtxo1, testUtxo2]).toOption.getD default).Input.getD 0
      default).Signature) =
      testCrypto.ecdsaSign testWallet.PrivateKeyBytes
        ((NewTransaction testCrypto testWallet [2] 10
          [testUtxo1, testUtxo2]).toOption.getD default).ID 0 :=
  ⟨(newTransaction_signs_each_input_over_same_id testCrypto testWallet [2] 10
      [testUtxo1, testUtxo2] _ (by decide)).1,
    (newTransaction_signs_each_input_over_same_id testCrypto testWallet [2] 10
      [testUtxo1, testUtxo2] _ (by decide)).2 0 default (by decide)⟩

/-! ## Lemmas for the stake-weighted walk -/

/-- No validators walked: zero prefix stake. -/
theorem prefixStake_zero (vs : List PosValidator) : prefixStake vs 0 = 0 :=
  rfl

/-- Prefix stakes of the empty registry vanish. -/
theorem prefixStake_nil (j : Nat) : prefixStake [] j = 0 := by
  simp [prefixStake]

/-- Peeling the first validator off a prefix sum. -/
theorem prefixStake_cons_succ (v : PosValidator) (vs : List PosValidator)
    (j : Nat) : prefixStake (v :: vs) (j + 1) = v.Stake + prefixStake vs j := by
  simp [prefixStake]

/-- With non-negative stakes every prefix sum is non-negative. -/
theorem prefixStake_nonneg (vs : List PosValidator)
    (h : ∀ v ∈ vs, 0 ≤ v.Stake) (j : Nat) : 0 ≤ prefixStake vs j := by
  unfold prefixStake
  refine List.sum_nonneg ?_
  intro x hx
  obtain ⟨v, hv, rfl⟩ := List.mem_map.mp hx
  exact h v (List.mem_of_mem_take hv)

/-- With non-negative stakes the prefix sums are monotone. -/
theorem prefixStake_mono (vs : List PosValidator)
    (h : ∀ v ∈ vs, 0 ≤ v.Stake) :
    ∀ {i j : Nat}, i ≤ j → prefixStake vs i ≤ prefixStake vs j := by
  have hstep : ∀ n : Nat, prefixStake vs n ≤ prefixStake vs (n + 1) := by
    intro n
    unfold prefixStake
    rw [List.take_succ, List.map_append, List.sum_append]
    have : 0 ≤ (List.map PosValidator.Stake vs[n]?.toList).sum := by
      refine List.sum_nonneg ?_
      intro x hx
      obtain ⟨v, hv, rfl⟩ := List.mem_map.mp hx
      cases hvn : vs[n]? with
      | none => rw [hvn] at hv; simp at hv
      | some w =>
        rw [hvn] at hv
        simp at hv
        subst hv
        exact h v (List.getElem?_mem hvn)
    omega
  intro i j hij
  induction j with
  | zero => simp_all
  | succ j ihj =>
    rcases Nat.lt_or_ge i (j + 1) with hlt | hge
    · exact le_trans (ihj (by omega)) (hstep j)
    · have : i = j + 1 := by omega
      subst this
      exact le_refl _

/-- The position the subtraction walk selects, characterised: it selects
`k` exactly when `k` is in range, the draw does not exceed the prefix stake
through position `k`, and every shorter prefix stake is strictly below the
draw. -/
theorem posWalkIdx_eq_some_iff :
    ∀ (vs : List PosValidator) (r : Int) (k : Nat),
      posWalkIdx r vs = some k ↔
        k < vs.length ∧ r ≤ prefixStake vs (k + 1) ∧
          ∀ j < k, prefixStake vs (j + 1) < r
  | [], r, k => by simp [posWalkIdx, prefixStake_nil]
  | v :: vs, r, k => by
    by_cases hr : r - v.Stake ≤ 0
    · cases k with
      | zero =>
        simp only [posWalkIdx, if_pos hr]
        simp only [prefixStake_cons_succ, prefixStake_zero]
        constructor
        · intro _
          refine ⟨by simp, by omega, by omega⟩
        · intro _
          trivial
      | succ k =>
        simp only [posWalkIdx, if_pos hr]
        constructor
        · intro hsome
          exact absurd hsome (by simp)
        · rintro ⟨-, -, hall⟩
          have h0 := hall 0 (by omega)
          rw [prefixStake_cons_succ, prefixStake_zero] at h0
          omega
    · cases k with
      | zero =>
        simp only [posWalkIdx, if_neg hr]
        constructor
        · intro hsome
          simp at hsome
        · rintro ⟨-, hle, -⟩
          rw [prefixStake_cons_succ, prefixStake_zero] at hle
          omega
      | succ k =>
        simp only [posWalkIdx, if_neg hr]
        rw [show ((posWalkIdx (r - v.Stake) vs).map (· + 1) = some (k + 1)) ↔
            posWalkIdx (r - v.Stake) vs = some k from by
          cases posWalkIdx (r - v.Stake) vs <;> simp]
        rw [posWalkIdx_eq_some_iff vs (r - v.Stake) k]
        constructor
        · rintro ⟨hk, hle, hall⟩
          refine ⟨by simpa using hk, ?_, ?_⟩
          · rw [prefixStake_cons_succ]
            omega
          · intro j hj
            cases j with
            | zero =>
              rw [prefixStake_cons_succ, prefixStake_zero]
              omega
            | succ j =>
              rw [prefixStake_cons_succ]
              have := hall j (by omega)
              omega
        · rintro ⟨hk, hle, hall⟩
          refine ⟨by simpa using hk, ?_, ?_⟩
          · rw [prefixStake_cons_succ] at hle
            omega
          · intro j hj
            have := hall (j + 1) (by omega)
            rw [prefixStake_cons_succ] at this
            omega

/-- The instrumented walk agrees with the source walk: when it reports
position `k`, `posWalk` returns the `k`-th validator's public key. -/
theorem posWalk_eq_of_posWalkIdx :
    ∀ (vs : List PosValidator) (r : Int) (k : Nat) (d : PosValidator),
      posWalkIdx r vs = some k →
        posWalk r vs = .ok ((vs.getD k d).PublicKey)
  | [], r, k, d => by simp [posWalkIdx]
  | v :: vs, r, k, d => by
    intro h
    by_cases hr : r - v.Stake ≤ 0
    · simp only [posWalkIdx, if_pos hr, Option.some.injEq] at h
      subst h
      simp [posWalk, hr]
    · simp only [posWalkIdx, if_neg hr] at h
      cases hidx : posWalkIdx (r - v.Stake) vs with
      | none => rw [hidx] at h; simp at h
      | some k' =>
        rw [hidx] at h
        simp at h
        subst h
        rw [show posWalk r (v :: vs) = posWalk (r - v.Stake) vs from by
          simp [posWalk, hr]]
        rw [posWalk_eq_of_posWalkIdx vs (r - v.Stake) k' d hidx]
        rfl

/-! ## C6 -/

/-- Counterexample for C6: with two validators of stake 1 each
(total = 2), position 1 is selected by zero of the two draws — not by
`stake = 1` of them.  Both draws `r ∈ {0, 1}` satisfy `r - 1 ≤ 0` at the
first validator, so the first validator owns every draw. -/
theorem posWalk_draw_count_ne_stake :
    drawCount twoValidators (totalStake twoValidators) 1 ≠
      ((twoValidators.getD 1 default).Stake).toNat := by
  decide

/-- C6 as amended: for a fixed walk order with non-negative stakes and
positive total, the number of draws `r ∈ [0, total)` that select position
`k` is `min(S (k+1), total − 1) − S k` for `k ≥ 1` and
`min(S 1, total − 1) + 1` for `k = 0` (written uniformly with a `-1` lower
bound), where `S` is the prefix-stake sum — the walk's `≤ 0` test hands
draw 0 to the first position as well, so the first position receives one
draw more than its stake and the last one fewer; selection is therefore not
exactly proportional to stake. -/
theorem posWalk_draw_count_formula (vs : List PosValidator) (k : Nat)
    (hst : ∀ v ∈ vs, 0 ≤ v.Stake) (hk : k < vs.length)
    (_hT : 0 < totalStake vs) :
    drawCount vs (totalStake vs) k =
      (min (prefixStake vs (k + 1)) (totalStake vs - 1) -
        (if k = 0 then -1 else prefixStake vs k)).toNat := by
  unfold drawCount
  have hfilter : (Finset.Icc (0 : Int) (totalStake vs - 1)).filter
      (fun r => posWalkIdx r vs = some k) =
      Finset.Icc ((if k = 0 then (-1 : Int) else prefixStake vs k) + 1)
        (min (prefixStake vs (k + 1)) (totalStake vs - 1)) := by
    ext r
    simp only [Finset.mem_filter, Finset.mem_Icc]
    rw [posWalkIdx_eq_some_iff]
    constructor
    · rintro ⟨⟨hr0, hrT⟩, -, hrS, hall⟩
      refine ⟨?_, le_min hrS hrT⟩
      split_ifs with hk0
      · omega
      · have hk1 : k - 1 + 1 = k := by omega
        have := hall (k - 1) (by omega)
        rw [hk1] at this
        omega
    · rintro ⟨hlo, hhi⟩
      have hrS : r ≤ prefixStake vs (k + 1) :=
        le_trans hhi (min_le_left _ _)
      have hrT : r ≤ totalStake vs - 1 :=
        le_trans hhi (min_le_right _ _)
      have h0 : 0 ≤ r := by
        split_ifs at hlo with hk0
        · omega
        · have := prefixStake_nonneg vs hst k
          omega
      refine ⟨⟨h0, hrT⟩, hk, hrS, ?_⟩
      intro j hj
      have hmono := prefixStake_mono vs hst (show j + 1 ≤ k by omega)
      split_ifs at hlo with hk0
      · omega
      · omega
  rw [hfilter, Int.card_Icc]
  generalize min (prefixStake vs (k + 1)) (totalStake vs - 1) = M
  split_ifs
  · omega
  · omega

/-- Witness for C6 at a concrete input: two validators of stake 1, position
0 — which receives both draws, `min(S 1, total − 1) − (−1) = 2` of them. -/
theorem posWalk_draw_count_formula_witness :
    drawCount twoValidators (totalStake twoValidators) 0 =
      (min (prefixStake twoValidators 1) (totalStake twoValidators - 1) -
        (if (0 : Nat) = 0 then -1 else prefixStake twoValidators 0)).toNat :=
  posWalk_draw_count_formula twoValidators 0 (by decide) (by decide) (by decide)

end GoBlockchain
